import Mathlib

/-!
Shallow embedding of the golang_music_player repository's core pure logic:

* `loader/loader.go` — `LoadTracks`, the recursive audio-file discovery walk
  built on `filepath.WalkDir`;
* `internal/ui/components/progress.go` — `HandleClick` (click-to-seek),
  the bar-segment arithmetic of `View`, and `formatDuration`;
* `internal/ui/views/library.go` — `filterTracks`, the local search filter.

Durations (`time.Duration`, an `int64` of nanoseconds) are embedded as `Int`;
machine overflow is idealized away. Go `float64` arithmetic in the two
percentage computations is idealized as exact rational arithmetic followed by
Go's float-to-int conversion (truncation toward zero), which on the integer
quotients that occur here is exactly `Int.tdiv`.
-/

/-! ### progress.go: the ProgressBar component -/

/-- Embeds the numeric and layout fields of `ProgressBar`
(progress.go lines 13-27). `Current` and `Total` are `time.Duration`
nanosecond counts; the lipgloss style fields are display-only and omitted. -/
structure ProgressBar where
  Width : Int
  Current : Int
  Total : Int
  BarChar : String
  EmptyChar : String
  ShowTime : Bool
  barWidth : Int
  timeWidth : Int

/-- Embeds `ProgressBar.HandleClick` (progress.go lines 63-76): clamp
`relX := clickX - barOffsetX` below at 0, return 0 when no bar or no track is
present, clamp `relX` above at `barWidth`, then convert
`float64(Total) * (relX / barWidth)` to a duration. On the guarded
(nonnegative) operands that reach it, that float computation truncated toward
zero is `(Total * relX).tdiv barWidth`. -/
def HandleClick (p : ProgressBar) (clickX barOffsetX : Int) : Int :=
  let relX := clickX - barOffsetX
  let relX := if relX < 0 then 0 else relX
  if p.barWidth ≤ 0 ∨ p.Total ≤ 0 then 0
  else
    let relX := if p.barWidth < relX then p.barWidth else relX
    (p.Total * relX).tdiv p.barWidth

/-- Embeds the bar-width computation of `ProgressBar.View`
(progress.go lines 91-96): `barWidth := Width - timeWidth` with
`timeWidth = 14`, floored at 10. -/
def viewBarWidth (p : ProgressBar) : Int :=
  if p.Width - 14 < 10 then 10 else p.Width - 14

/-- Embeds the seek-head position of `ProgressBar.View`
(progress.go lines 81-101): `percent := Current / Total` when `Total > 0`
(else 0), clamped above at 1; `headPos := int(float64(barWidth) * percent)`,
then clamped to at most `barWidth - 1`. With exact arithmetic the
float-to-int truncation of `barWidth * (Current / Total)` is
`(barWidth * Current).tdiv Total`, and `percent` exceeds 1 exactly when
`Total < Current`. -/
def viewHeadPos (p : ProgressBar) : Int :=
  let bw := viewBarWidth p
  let hp :=
    if 0 < p.Total then
      if p.Total < p.Current then bw else (bw * p.Current).tdiv p.Total
    else 0
  if bw ≤ hp then bw - 1 else hp

/-- Embeds the `filled` segment count of `View` (progress.go line 103):
the number of characters passed to `strings.Repeat(BarChar, filled)`. -/
def viewFilled (p : ProgressBar) : Int :=
  viewHeadPos p

/-- Embeds the `empty` segment count of `View` (progress.go line 104):
the number of characters passed to `strings.Repeat(EmptyChar, empty)`. -/
def viewEmpty (p : ProgressBar) : Int :=
  viewBarWidth p - viewHeadPos p - 1

/-! ### progress.go: formatDuration -/

/-- Nanoseconds in `time.Second`. -/
def nsPerSec : Int := 1000000000

/-- Nanoseconds in `time.Minute`. -/
def nsPerMin : Int := 60000000000

/-- Embeds Go's `time.Duration.Round(m)`: round `d` to the nearest multiple
of `m`, ties away from zero (overflow saturation idealized away). Go's `%`
on integers is truncated modulus, `Int.tmod`. -/
def durRound (d m : Int) : Int :=
  if m ≤ 0 then d
  else
    let r := Int.tmod d m
    if d < 0 then
      let r2 := -r
      if r2 + r2 < m then d + r2 else d + r2 - m
    else
      if r + r < m then d - r else d - r + m

/-- Decimal digit character for a value in 0..9. -/
def digitChar (n : Nat) : Char := Char.ofNat (48 + n)

/-- Accumulates the decimal digits of `n` (most significant first) in front
of `acc`. -/
def decDigitsAux : Nat → List Char → List Char
  | 0, acc => acc
  | n + 1, acc => decDigitsAux ((n + 1) / 10) (digitChar ((n + 1) % 10) :: acc)
decreasing_by exact Nat.div_lt_self (Nat.succ_pos n) (by omega)

/-- Decimal rendering of a natural number, at least one digit. -/
def decRepr (n : Nat) : List Char :=
  if n = 0 then ['0'] else decDigitsAux n []

/-- Embeds `fmt.Sprintf("%02d", n)` for the nonnegative values produced by
`formatDuration`: the decimal rendering left-padded with `'0'` to at least
two characters. -/
def pad2 (n : Int) : String :=
  let ds := decRepr n.toNat
  ⟨if ds.length < 2 then '0' :: ds else ds⟩

/-- Embeds `formatDuration` (progress.go lines 128-133): round to the
nearest second, split into whole minutes (`d / time.Minute`, Go `/` on
int64 is `Int.tdiv`) and leftover seconds (`(d % time.Minute) / time.Second`),
and render as `"MM:SS"` via `%02d:%02d`. -/
def formatDuration (d : Int) : String :=
  let d := durRound d nsPerSec
  let m := d.tdiv nsPerMin
  let s := (Int.tmod d nsPerMin).tdiv nsPerSec
  pad2 m ++ ":" ++ pad2 s

/-! ### library.go: the search filter -/

/-- Embeds Go's `strings.ToLower`: every character lowercased (Lean's
`Char.toLower`, which covers the ASCII range; Go's full Unicode case
mapping is idealized to this). -/
def strToLower (s : String) : String := ⟨s.data.map Char.toLower⟩

/-- Tests whether the first list is a leading segment of the second. -/
def isPref : List Char → List Char → Bool
  | [], _ => true
  | _ :: _, [] => false
  | a :: as, b :: bs => a == b && isPref as bs

/-- Tests whether the first list occurs contiguously inside the second
(true for the empty needle, as for Go's `strings.Contains`). -/
def hasSub : List Char → List Char → Bool
  | n, [] => n.isEmpty
  | n, c :: rest => isPref n (c :: rest) || hasSub n rest

/-- Embeds Go's `strings.Contains(s, sub)`. -/
def strContains (s sub : String) : Bool := hasSub sub.data s.data

/-- Embeds the `api.Track` fields read by `filterTracks` (the `api` package
itself is not among the staged files; only the three searched string fields
matter here). -/
structure Track where
  Title : String
  Artist : String
  Album : String

/-- Embeds the `LibraryView` state touched by `filterTracks`
(library.go lines 13-22): the full track list, the displayed `TrackList`
items (`TrackList.SetItems` replaces exactly this list), and the remaining
non-display state. -/
structure LibraryView where
  AllTracks : List Track
  TrackListItems : List Track
  Searching : Bool
  SearchValue : String

/-- Embeds the per-track test of `filterTracks` (library.go lines 96-100):
`strings.Contains(strings.ToLower(field), q)` over Title, Artist, Album,
where `q` is the already-lowercased query. -/
def trackMatches (q : String) (t : Track) : Bool :=
  strContains (strToLower t.Title) q ||
    strContains (strToLower t.Artist) q ||
    strContains (strToLower t.Album) q

/-- Embeds `filterTracks` (library.go lines 87-103): the empty query
restores the full list; otherwise the query is lowercased and the displayed
items become the matching tracks in their original order. -/
def filterTracks (v : LibraryView) (query : String) : LibraryView :=
  if query = "" then { v with TrackListItems := v.AllTracks }
  else
    let q := strToLower query
    { v with TrackListItems := v.AllTracks.filter (fun t => trackMatches q t) }

/-! ### loader.go: LoadTracks over a model of filepath.WalkDir -/

/-- Scans the reversed character list of a path for its extension: collects
characters until the final dot (returning dot plus what followed it) and
stops empty at a path separator or at the start, exactly as
`filepath.Ext` does. -/
def extScan (acc : List Char) : List Char → List Char
  | [] => []
  | c :: rest =>
    if c = '/' then []
    else if c = '.' then c :: acc
    else extScan (c :: acc) rest

/-- Embeds Go's `filepath.Ext`: the suffix of the final path element
starting at its last dot, or the empty string. -/
def filepathExt (path : String) : String := ⟨extScan [] path.data.reverse⟩

/-- Embeds the filter of `LoadTracks` (loader.go lines 24-25):
`strings.ToLower(filepath.Ext(path))` equal to `.mp3`, `.flac` or `.wav`. -/
def isAudio (path : String) : Bool :=
  let e := strToLower (filepathExt path)
  e == ".mp3" || e == ".flac" || e == ".wav"

/-- A file tree as `filepath.WalkDir` traverses it. A directory's
`readErr` models `os.ReadDir` failing on it, the one way an entry hands a
non-nil error to the walk callback during traversal (plain file entries are
always visited with a nil error). `filepath.WalkDir` visits a directory's
children in lexical order, so a `children` list stands for that sorted
order: a concrete tree models a real walk only when its lists are sorted by
name (the universally quantified theorems below hold for every order, the
lexical one included). -/
inductive FSEntry where
  | file (name : String)
  | dir (name : String) (readErr : Option String) (children : List FSEntry)

/-- Path of an entry: the root keeps its own name, deeper entries get
`filepath.Join(parent, name)`. -/
def pathOf (parent : Option String) (nm : String) : String :=
  match parent with
  | none => nm
  | some pp => pp ++ "/" ++ nm

mutual

/-- Embeds the `filepath.WalkDir` traversal of `LoadTracks`
(loader.go lines 14-29) on one entry, threading the accumulated `files`
slice: a nil-error file entry is appended when its extension matches
(lines 19-27); a directory is skipped as an entry and its children walked,
unless reading it fails, in which case the callback's `return err`
(lines 15-17) aborts the whole walk with that error. -/
def walkEntry (parent : Option String) (acc : List String) :
    FSEntry → List String × Option String
  | .file nm =>
    let path := pathOf parent nm
    if isAudio path then (acc ++ [path], none) else (acc, none)
  | .dir nm readErr children =>
    let path := pathOf parent nm
    match readErr with
    | some e => (acc, some e)
    | none => walkList path acc children

/-- Walks the children of a directory in list order — which stands for the
lexical order `filepath.WalkDir` visits them in — stopping at the first
aborted child. -/
def walkList (parent : String) (acc : List String) :
    List FSEntry → List String × Option String
  | [] => (acc, none)
  | c :: cs =>
    match walkEntry (some parent) acc c with
    | (acc2, none) => walkList parent acc2 cs
    | (acc2, some e) => (acc2, some e)

end

/-- Embeds `LoadTracks` (loader.go lines 10-32): walk the root and return
the accumulated audio-file paths together with the walk's error value. -/
def LoadTracks (root : FSEntry) : List String × Option String :=
  walkEntry none [] root

mutual

/-- The entries the walk actually reaches (the callback is invoked on them),
each tagged with `IsDir`, together with whether the walk aborted inside this
entry. A directory whose read fails is itself reached, but nothing after
it is. -/
def reachedEntry (parent : Option String) : FSEntry → List (String × Bool) × Bool
  | .file nm => ([(pathOf parent nm, false)], false)
  | .dir nm readErr children =>
    let path := pathOf parent nm
    match readErr with
    | some _ => ([(path, true)], true)
    | none =>
      let r := reachedList path children
      ((path, true) :: r.1, r.2)

/-- Reached entries of a child list, stopping after an aborting child. -/
def reachedList (parent : String) : List FSEntry → List (String × Bool) × Bool
  | [] => ([], false)
  | c :: cs =>
    let r1 := reachedEntry (some parent) c
    if r1.2 then (r1.1, true)
    else
      let r2 := reachedList parent cs
      (r1.1 ++ r2.1, r2.2)

end

mutual

/-- True when no directory anywhere in the entry reports a read error. -/
def entryErrFree : FSEntry → Bool
  | .file _ => true
  | .dir _ readErr children => readErr.isNone && listErrFree children

/-- True when every entry of the list is error-free. -/
def listErrFree : List FSEntry → Bool
  | [] => true
  | c :: cs => entryErrFree c && listErrFree cs

end

mutual

/-- The paths of all plain-file entries of the tree, in discovery order,
at every nesting depth. -/
def entryFiles (parent : Option String) : FSEntry → List String
  | .file nm => [pathOf parent nm]
  | .dir nm _ children => listFiles (pathOf parent nm) children

/-- The file paths of a child list, in order. -/
def listFiles (parent : String) : List FSEntry → List String
  | [] => []
  | c :: cs => entryFiles (some parent) c ++ listFiles parent cs

end

/-! ### Helper lemmas -/

/-- Truncating division is monotone in a nonnegative numerator. -/
theorem tdiv_le_tdiv_right {a b c : Int} (h0 : 0 ≤ a) (hab : a ≤ b) (hc : 0 < c) :
    a.tdiv c ≤ b.tdiv c := by
  rw [Int.tdiv_eq_ediv h0 (le_of_lt hc), Int.tdiv_eq_ediv (le_trans h0 hab) (le_of_lt hc)]
  exact Int.ediv_le_ediv hc hab

/-- Characterization of `HandleClick` when a bar and a track are present:
the clamped relative click position is `min barWidth (max 0 (clickX - barOffsetX))`. -/
theorem HandleClick_eq (p : ProgressBar) (clickX barOffsetX : Int)
    (hbw : 0 < p.barWidth) (ht : 0 < p.Total) :
    HandleClick p clickX barOffsetX =
      (p.Total * min p.barWidth (max 0 (clickX - barOffsetX))).tdiv p.barWidth := by
  have hg : ¬(p.barWidth ≤ 0 ∨ p.Total ≤ 0) := by omega
  simp only [HandleClick]
  rw [if_neg hg]
  congr 1
  congr 1
  split_ifs <;> omega

/-- Claim C3: with a positive bar width and total, `HandleClick` always
returns a duration in `[0, Total]`; a click at or left of the bar start
returns exactly 0, and a click at or beyond the bar end returns exactly
`Total`. -/
theorem HandleClick_clamps (p : ProgressBar) (clickX barOffsetX : Int)
    (hbw : 0 < p.barWidth) (ht : 0 < p.Total) :
    (0 ≤ HandleClick p clickX barOffsetX ∧ HandleClick p clickX barOffsetX ≤ p.Total) ∧
    (clickX - barOffsetX ≤ 0 → HandleClick p clickX barOffsetX = 0) ∧
    (p.barWidth ≤ clickX - barOffsetX → HandleClick p clickX barOffsetX = p.Total) := by
  rw [HandleClick_eq p clickX barOffsetX hbw ht]
  have hmn : 0 ≤ min p.barWidth (max 0 (clickX - barOffsetX)) := by omega
  refine ⟨⟨?_, ?_⟩, ?_, ?_⟩
  · exact Int.tdiv_nonneg (mul_nonneg (le_of_lt ht) hmn) (le_of_lt hbw)
  · rw [Int.tdiv_eq_ediv (mul_nonneg (le_of_lt ht) hmn) (le_of_lt hbw)]
    exact Int.ediv_le_of_le_mul hbw
      (mul_le_mul_of_nonneg_left (by omega) (le_of_lt ht))
  · intro h
    have hz : min p.barWidth (max 0 (clickX - barOffsetX)) = 0 := by omega
    rw [hz, mul_zero, Int.zero_tdiv]
  · intro h
    have hw : min p.barWidth (max 0 (clickX - barOffsetX)) = p.barWidth := by omega
    rw [hw, Int.mul_tdiv_cancel _ (by omega : p.barWidth ≠ 0)]

/-- Witness for C3 at a concrete bar (width 36, total 1000 ns) and clicks. -/
theorem HandleClick_clamps_witness :
    (0 ≤ HandleClick (ProgressBar.mk 50 0 1000 "a" "b" true 36 14) 100 2 ∧
      HandleClick (ProgressBar.mk 50 0 1000 "a" "b" true 36 14) 100 2 ≤ 1000) ∧
    ((100 : Int) - 2 ≤ 0 → HandleClick (ProgressBar.mk 50 0 1000 "a" "b" true 36 14) 100 2 = 0) ∧
    ((36 : Int) ≤ 100 - 2 → HandleClick (ProgressBar.mk 50 0 1000 "a" "b" true 36 14) 100 2 = 1000) :=
  HandleClick_clamps (ProgressBar.mk 50 0 1000 "a" "b" true 36 14) 100 2
    (by decide) (by decide)

/-- Claim C4: with no loaded track (`Total <= 0`) or no laid-out bar
(`barWidth <= 0`), `HandleClick` returns 0: the guard fires before any
division by `barWidth` is reached. -/
theorem HandleClick_noTrack (p : ProgressBar) (clickX barOffsetX : Int)
    (h : p.Total ≤ 0 ∨ p.barWidth ≤ 0) :
    HandleClick p clickX barOffsetX = 0 := by
  simp only [HandleClick]
  rw [if_pos (Or.symm h)]

/-- Witness for C4: a stopped player (total 0) yields a zero seek target. -/
theorem HandleClick_noTrack_witness :
    HandleClick (ProgressBar.mk 80 5 0 "a" "b" true 36 14) 17 2 = 0 :=
  HandleClick_noTrack (ProgressBar.mk 80 5 0 "a" "b" true 36 14) 17 2
    (Or.inl (by decide))

/-- Claim C7: for a fixed bar with positive width and total and a fixed
offset, `HandleClick` is monotone in the click position. -/
theorem HandleClick_monotone (p : ProgressBar) (clickX1 clickX2 barOffsetX : Int)
    (hbw : 0 < p.barWidth) (ht : 0 < p.Total) (h : clickX1 ≤ clickX2) :
    HandleClick p clickX1 barOffsetX ≤ HandleClick p clickX2 barOffsetX := by
  rw [HandleClick_eq p clickX1 barOffsetX hbw ht, HandleClick_eq p clickX2 barOffsetX hbw ht]
  have hmn : 0 ≤ min p.barWidth (max 0 (clickX1 - barOffsetX)) := by omega
  exact tdiv_le_tdiv_right (mul_nonneg (le_of_lt ht) hmn)
    (mul_le_mul_of_nonneg_left (by omega) (le_of_lt ht)) hbw

/-- Witness for C7 at a concrete bar and a concrete pair of clicks. -/
theorem HandleClick_monotone_witness :
    HandleClick (ProgressBar.mk 50 0 1000 "a" "b" true 36 14) 7 2 ≤
      HandleClick (ProgressBar.mk 50 0 1000 "a" "b" true 36 14) 21 2 :=
  HandleClick_monotone (ProgressBar.mk 50 0 1000 "a" "b" true 36 14) 7 21 2
    (by decide) (by decide) (by decide)

/-- Bounds on the clamped seek-head position under a nonnegative `Current`. -/
theorem viewHeadPos_bounds (p : ProgressBar) (h : 0 ≤ p.Current) :
    0 ≤ viewHeadPos p ∧ viewHeadPos p ≤ viewBarWidth p - 1 := by
  have hbw : 10 ≤ viewBarWidth p := by
    unfold viewBarWidth; split_ifs <;> omega
  simp only [viewHeadPos]
  split_ifs with h1 h2 h3 h4 h5
  all_goals
    first
      | omega
      | (have htd : 0 ≤ (viewBarWidth p * p.Current).tdiv p.Total :=
          Int.tdiv_nonneg (mul_nonneg (show (0 : Int) ≤ viewBarWidth p by omega) h)
            (le_of_lt h1)
         omega)

/-- Claim C6: when `Current >= 0` the segment counts of `View` are
nonnegative and fill the bar exactly (`filled + 1 + empty = barWidth`, with
`barWidth >= 10`), so `strings.Repeat` never receives a negative count; and
the precondition is needed: some negative `Current` makes the filled count
negative. -/
theorem View_segments (p : ProgressBar) (h : 0 ≤ p.Current) :
    (0 ≤ viewFilled p ∧ 0 ≤ viewEmpty p ∧
      viewFilled p + 1 + viewEmpty p = viewBarWidth p ∧ 10 ≤ viewBarWidth p) ∧
    (∃ q : ProgressBar, q.Current < 0 ∧ viewFilled q < 0) := by
  have hbw : 10 ≤ viewBarWidth p := by
    unfold viewBarWidth; split_ifs <;> omega
  have hhp := viewHeadPos_bounds p h
  refine ⟨⟨?_, ?_, ?_, hbw⟩, ⟨ProgressBar.mk 24 (-1) 1 "a" "b" true 0 0, by decide, by decide⟩⟩
  · unfold viewFilled; omega
  · unfold viewEmpty; omega
  · unfold viewFilled viewEmpty; omega

/-- Witness for C6 at a concrete bar mid-track. -/
theorem View_segments_witness :
    (0 ≤ viewFilled (ProgressBar.mk 50 300 1000 "a" "b" true 0 0) ∧
      0 ≤ viewEmpty (ProgressBar.mk 50 300 1000 "a" "b" true 0 0) ∧
      viewFilled (ProgressBar.mk 50 300 1000 "a" "b" true 0 0) + 1 +
          viewEmpty (ProgressBar.mk 50 300 1000 "a" "b" true 0 0) =
        viewBarWidth (ProgressBar.mk 50 300 1000 "a" "b" true 0 0) ∧
      10 ≤ viewBarWidth (ProgressBar.mk 50 300 1000 "a" "b" true 0 0)) ∧
    (∃ q : ProgressBar, q.Current < 0 ∧ viewFilled q < 0) :=
  View_segments (ProgressBar.mk 50 300 1000 "a" "b" true 0 0) (by decide)

/-- The empty needle is contained in every haystack. -/
theorem hasSub_nil (l : List Char) : hasSub [] l = true := by
  cases l with
  | nil => rfl
  | cons c rest => simp [hasSub, isPref]

/-- Every track matches the empty query. -/
theorem trackMatches_empty (t : Track) : trackMatches "" t = true := by
  simp [trackMatches, strContains, hasSub_nil]

/-- Claim C5: `filterTracks` is a pure local filter: the displayed items
become exactly the tracks whose lowercased Title, Artist or Album contains
the lowercased query, in their original order; every other field of the view
is untouched; and the empty query restores the full list. -/
theorem filterTracks_spec (v : LibraryView) (query : String) :
    ((filterTracks v query).TrackListItems
        = v.AllTracks.filter (fun t => trackMatches (strToLower query) t)) ∧
    (∀ t, t ∈ (filterTracks v query).TrackListItems
        ↔ t ∈ v.AllTracks ∧ trackMatches (strToLower query) t = true) ∧
    ((filterTracks v query).AllTracks = v.AllTracks ∧
      (filterTracks v query).Searching = v.Searching ∧
      (filterTracks v query).SearchValue = v.SearchValue) ∧
    (query = "" → (filterTracks v query).TrackListItems = v.AllTracks) := by
  have hitems : (filterTracks v query).TrackListItems
      = v.AllTracks.filter (fun t => trackMatches (strToLower query) t) := by
    by_cases hq : query = ""
    · subst hq
      have hlow : strToLower "" = "" := rfl
      rw [hlow]
      simp only [filterTracks, if_pos rfl]
      exact (List.filter_eq_self.mpr (fun t _ => trackMatches_empty t)).symm
    · simp only [filterTracks, if_neg hq]
  refine ⟨hitems, ?_, ?_, ?_⟩
  · intro t
    rw [hitems]
    simp [List.mem_filter]
  · by_cases hq : query = "" <;> simp [filterTracks, hq]
  · intro hq
    subst hq
    simp [filterTracks]

/-- Accumulating digits never shortens the list. -/
theorem decDigitsAux_len : ∀ (n : Nat) (acc : List Char),
    acc.length ≤ (decDigitsAux n acc).length
  | 0, acc => by simp [decDigitsAux]
  | n + 1, acc => by
    rw [decDigitsAux]
    have h1 := decDigitsAux_len ((n + 1) / 10) (digitChar ((n + 1) % 10) :: acc)
    simp only [List.length_cons] at h1
    omega
termination_by n _ => n
decreasing_by exact Nat.div_lt_self (by omega) (by omega)

/-- A positive value contributes at least one digit. -/
theorem decDigitsAux_len_pos (n : Nat) (acc : List Char) (h : n ≠ 0) :
    acc.length < (decDigitsAux n acc).length := by
  match n, h with
  | m + 1, _ =>
    rw [decDigitsAux]
    have h1 := decDigitsAux_len ((m + 1) / 10) (digitChar ((m + 1) % 10) :: acc)
    simp only [List.length_cons] at h1
    omega

/-- The decimal rendering has at least one digit. -/
theorem decRepr_len (n : Nat) : 1 ≤ (decRepr n).length := by
  unfold decRepr
  split_ifs with h
  · simp
  · have h2 := decDigitsAux_len_pos n [] h
    simp only [List.length_nil] at h2
    omega

/-- The padded rendering has at least two characters. -/
theorem pad2_len (n : Int) : 2 ≤ (pad2 n).length := by
  have h1 := decRepr_len n.toNat
  simp only [pad2]
  split_ifs with h
  · simp [String.length]
    omega
  · simp [String.length]
    omega

/-- Rounding a nonnegative duration to the second: the result is a
nonnegative multiple of a second with absolute error at most half a second
(ties rounded up, away from zero). -/
theorem durRound_spec (d : Int) (h : 0 ≤ d) :
    Int.tmod (durRound d nsPerSec) nsPerSec = 0 ∧ 0 ≤ durRound d nsPerSec ∧
    2 * (durRound d nsPerSec - d) ≤ nsPerSec ∧
    2 * (d - durRound d nsPerSec) < nsPerSec := by
  have hpos : (0 : Int) < nsPerSec := by norm_num [nsPerSec]
  have e1 : Int.tmod d nsPerSec = d % nsPerSec := Int.tmod_eq_emod h (le_of_lt hpos)
  have e2 : nsPerSec * (d / nsPerSec) + d % nsPerSec = d := Int.ediv_add_emod d nsPerSec
  have hr0 : 0 ≤ d % nsPerSec := Int.emod_nonneg d (ne_of_gt hpos)
  have hrlt : d % nsPerSec < nsPerSec := Int.emod_lt_of_pos d hpos
  have hq0 : 0 ≤ d / nsPerSec := Int.ediv_nonneg h (le_of_lt hpos)
  have hmul : 0 ≤ nsPerSec * (d / nsPerSec) := mul_nonneg (le_of_lt hpos) hq0
  have hmul2 : 0 ≤ nsPerSec * (d / nsPerSec + 1) := mul_nonneg (le_of_lt hpos) (by omega)
  simp only [durRound, e1]
  rw [if_neg (by omega : ¬ nsPerSec ≤ 0), if_neg (by omega : ¬ d < 0)]
  split_ifs with hh
  · refine ⟨?_, by omega, by omega, by omega⟩
    have hv : d - d % nsPerSec = nsPerSec * (d / nsPerSec) := by omega
    rw [hv, Int.tmod_eq_emod hmul (le_of_lt hpos), Int.mul_emod_right]
  · refine ⟨?_, by omega, by omega, by omega⟩
    have hv : d - d % nsPerSec + nsPerSec = nsPerSec * (d / nsPerSec + 1) := by
      rw [mul_add, mul_one]
      omega
    rw [hv, Int.tmod_eq_emod hmul2 (le_of_lt hpos), Int.mul_emod_right]

/-- Claim C8: for a nonnegative duration, `formatDuration` rounds to the
nearest whole second (a multiple of a second, error at most half a second)
and renders it as zero-padded minutes and seconds separated by a colon, the
rounded value decomposing exactly into those minutes and seconds with the
seconds component in `[0, 59]` and both rendered components at least two
characters long. -/
theorem formatDuration_spec (d : Int) (h : 0 ≤ d) :
    Int.tmod (durRound d nsPerSec) nsPerSec = 0 ∧
    2 * (durRound d nsPerSec - d) ≤ nsPerSec ∧
    2 * (d - durRound d nsPerSec) < nsPerSec ∧
    formatDuration d =
      pad2 ((durRound d nsPerSec).tdiv nsPerMin) ++ ":" ++
        pad2 ((Int.tmod (durRound d nsPerSec) nsPerMin).tdiv nsPerSec) ∧
    durRound d nsPerSec =
      nsPerMin * ((durRound d nsPerSec).tdiv nsPerMin) +
        nsPerSec * ((Int.tmod (durRound d nsPerSec) nsPerMin).tdiv nsPerSec) ∧
    0 ≤ (Int.tmod (durRound d nsPerSec) nsPerMin).tdiv nsPerSec ∧
    (Int.tmod (durRound d nsPerSec) nsPerMin).tdiv nsPerSec ≤ 59 ∧
    2 ≤ (pad2 ((durRound d nsPerSec).tdiv nsPerMin)).length ∧
    2 ≤ (pad2 ((Int.tmod (durRound d nsPerSec) nsPerMin).tdiv nsPerSec)).length := by
  obtain ⟨hz, hnn, hub, hlb⟩ := durRound_spec d h
  have hpos : (0 : Int) < nsPerSec := by norm_num [nsPerSec]
  have hposM : (0 : Int) < nsPerMin := by norm_num [nsPerMin]
  have hdvd : nsPerSec ∣ nsPerMin := ⟨60, by norm_num [nsPerSec, nsPerMin]⟩
  have e1 : Int.tmod (durRound d nsPerSec) nsPerMin = durRound d nsPerSec % nsPerMin :=
    Int.tmod_eq_emod hnn (le_of_lt hposM)
  have e2 : Int.tmod (durRound d nsPerSec) nsPerSec = durRound d nsPerSec % nsPerSec :=
    Int.tmod_eq_emod hnn (le_of_lt hpos)
  have hzE : durRound d nsPerSec % nsPerSec = 0 := by rw [← e2]; exact hz
  have hm0 : 0 ≤ durRound d nsPerSec % nsPerMin :=
    Int.emod_nonneg _ (ne_of_gt hposM)
  have e3 : (Int.tmod (durRound d nsPerSec) nsPerMin).tdiv nsPerSec =
      (durRound d nsPerSec % nsPerMin) / nsPerSec := by
    rw [e1, Int.tdiv_eq_ediv hm0 (le_of_lt hpos)]
  have e4 : (durRound d nsPerSec).tdiv nsPerMin = durRound d nsPerSec / nsPerMin :=
    Int.tdiv_eq_ediv hnn (le_of_lt hposM)
  have hs0 : 0 ≤ (durRound d nsPerSec % nsPerMin) / nsPerSec :=
    Int.ediv_nonneg hm0 (le_of_lt hpos)
  have hs59 : (durRound d nsPerSec % nsPerMin) / nsPerSec ≤ 59 := by
    have hlt : (durRound d nsPerSec % nsPerMin) / nsPerSec < 60 := by
      rw [Int.ediv_lt_iff_lt_mul hpos]
      have h60 : (60 : Int) * nsPerSec = nsPerMin := by norm_num [nsPerSec, nsPerMin]
      have hmlt : durRound d nsPerSec % nsPerMin < nsPerMin :=
        Int.emod_lt_of_pos _ hposM
      omega
    omega
  have hzz : (durRound d nsPerSec % nsPerMin) % nsPerSec = 0 := by
    rw [Int.emod_emod_of_dvd _ hdvd]
    exact hzE
  have edec : nsPerMin * (durRound d nsPerSec / nsPerMin) + durRound d nsPerSec % nsPerMin =
      durRound d nsPerSec := Int.ediv_add_emod _ nsPerMin
  have edecS : nsPerSec * ((durRound d nsPerSec % nsPerMin) / nsPerSec) +
      (durRound d nsPerSec % nsPerMin) % nsPerSec = durRound d nsPerSec % nsPerMin :=
    Int.ediv_add_emod _ nsPerSec
  refine ⟨hz, hub, hlb, rfl, ?_, ?_, ?_, pad2_len _, pad2_len _⟩
  · rw [e4, e3]
    omega
  · rw [e3]
    exact hs0
  · rw [e3]
    exact hs59

/-- Witness for C8 at 61.5 seconds, which rounds up to 62 seconds. -/
theorem formatDuration_spec_witness :
    Int.tmod (durRound 61500000000 nsPerSec) nsPerSec = 0 ∧
    2 * (durRound 61500000000 nsPerSec - 61500000000) ≤ nsPerSec ∧
    2 * (61500000000 - durRound 61500000000 nsPerSec) < nsPerSec ∧
    formatDuration 61500000000 =
      pad2 ((durRound 61500000000 nsPerSec).tdiv nsPerMin) ++ ":" ++
        pad2 ((Int.tmod (durRound 61500000000 nsPerSec) nsPerMin).tdiv nsPerSec) ∧
    durRound 61500000000 nsPerSec =
      nsPerMin * ((durRound 61500000000 nsPerSec).tdiv nsPerMin) +
        nsPerSec * ((Int.tmod (durRound 61500000000 nsPerSec) nsPerMin).tdiv nsPerSec) ∧
    0 ≤ (Int.tmod (durRound 61500000000 nsPerSec) nsPerMin).tdiv nsPerSec ∧
    (Int.tmod (durRound 61500000000 nsPerSec) nsPerMin).tdiv nsPerSec ≤ 59 ∧
    2 ≤ (pad2 ((durRound 61500000000 nsPerSec).tdiv nsPerMin)).length ∧
    2 ≤ (pad2 ((Int.tmod (durRound 61500000000 nsPerSec) nsPerMin).tdiv nsPerSec)).length :=
  formatDuration_spec 61500000000 (by decide)

mutual

/-- The walk's accumulated files are exactly the reached non-directory
entries whose extension matches, in discovery order; and the walk returns a
nil error exactly when it did not abort. -/
theorem walkEntry_reached (parent : Option String) (acc : List String) (t : FSEntry) :
    (walkEntry parent acc t).1 =
      acc ++ (((reachedEntry parent t).1).filter
        (fun e => !e.2 && isAudio e.1)).map (fun e => e.1) ∧
    ((walkEntry parent acc t).2 = none ↔ (reachedEntry parent t).2 = false) := by
  cases t with
  | file nm =>
    simp only [walkEntry, reachedEntry]
    split_ifs with ha
    · simp [ha]
    · simp [ha]
  | dir nm readErr children =>
    cases readErr with
    | some e => simp [walkEntry, reachedEntry]
    | none =>
      simpa [walkEntry, reachedEntry] using
        walkList_reached (pathOf parent nm) acc children
termination_by sizeOf t

/-- List version of `walkEntry_reached`. -/
theorem walkList_reached (parent : String) (acc : List String) (l : List FSEntry) :
    (walkList parent acc l).1 =
      acc ++ (((reachedList parent l).1).filter
        (fun e => !e.2 && isAudio e.1)).map (fun e => e.1) ∧
    ((walkList parent acc l).2 = none ↔ (reachedList parent l).2 = false) := by
  cases l with
  | nil => simp [walkList, reachedList]
  | cons c cs =>
    obtain ⟨ih1f, ih1e⟩ := walkEntry_reached (some parent) acc c
    rcases hw : walkEntry (some parent) acc c with ⟨acc2, e⟩
    rw [hw] at ih1f ih1e
    simp only at ih1f ih1e
    cases e with
    | none =>
      have hr1 : (reachedEntry (some parent) c).2 = false := ih1e.mp rfl
      obtain ⟨ih2f, ih2e⟩ := walkList_reached parent acc2 cs
      simp only [walkList, hw]
      simp only [reachedList, hr1]
      constructor
      · simp only [Bool.false_eq_true, if_false]
        rw [ih2f, ih1f]
        simp [List.filter_append, List.append_assoc]
      · simpa using ih2e
    | some msg =>
      have hr1 : (reachedEntry (some parent) c).2 = true := by
        by_contra hc
        have h2 := ih1e.mpr (by simpa using hc)
        simp at h2
      simp only [walkList, hw]
      simp only [reachedList, hr1]
      constructor
      · simpa using ih1f
      · simp
termination_by sizeOf l

end

mutual

/-- The walk returns a nil error exactly when no directory in the tree
reports a read error. -/
theorem walkEntry_none_iff (parent : Option String) (acc : List String) (t : FSEntry) :
    (walkEntry parent acc t).2 = none ↔ entryErrFree t = true := by
  cases t with
  | file nm =>
    simp only [walkEntry, entryErrFree]
    split_ifs <;> simp
  | dir nm readErr children =>
    cases readErr with
    | some e => simp [walkEntry, entryErrFree]
    | none =>
      simpa [walkEntry, entryErrFree] using
        walkList_none_iff (pathOf parent nm) acc children
termination_by sizeOf t

/-- List version of `walkEntry_none_iff`. -/
theorem walkList_none_iff (parent : String) (acc : List String) (l : List FSEntry) :
    (walkList parent acc l).2 = none ↔ listErrFree l = true := by
  cases l with
  | nil => simp [walkList, listErrFree]
  | cons c cs =>
    have ih1 := walkEntry_none_iff (some parent) acc c
    rcases hw : walkEntry (some parent) acc c with ⟨acc2, e⟩
    rw [hw] at ih1
    simp only at ih1
    cases e with
    | none =>
      have hc : entryErrFree c = true := ih1.mp rfl
      have ih2 := walkList_none_iff parent acc2 cs
      simp only [walkList, hw]
      simp [listErrFree, hc, ih2]
    | some msg =>
      have hc : entryErrFree c = false := by
        by_contra hcc
        have h2 := ih1.mpr (by simpa using hcc)
        simp at h2
      simp only [walkList, hw]
      simp [listErrFree, hc]
termination_by sizeOf l

end

mutual

/-- On an error-free tree the walk completes with a nil error and collects
exactly the matching files, at every depth, in discovery order. -/
theorem walkEntry_errFree (parent : Option String) (acc : List String) (t : FSEntry)
    (h : entryErrFree t = true) :
    walkEntry parent acc t = (acc ++ (entryFiles parent t).filter isAudio, none) := by
  cases t with
  | file nm =>
    simp only [walkEntry, entryFiles]
    split_ifs with ha <;> simp [ha]
  | dir nm readErr children =>
    cases readErr with
    | some e => simp [entryErrFree] at h
    | none =>
      simp only [entryErrFree, Option.isNone_none, Bool.true_and] at h
      simpa [walkEntry, entryFiles] using
        walkList_errFree (pathOf parent nm) acc children h
termination_by sizeOf t

/-- List version of `walkEntry_errFree`. -/
theorem walkList_errFree (parent : String) (acc : List String) (l : List FSEntry)
    (h : listErrFree l = true) :
    walkList parent acc l = (acc ++ (listFiles parent l).filter isAudio, none) := by
  cases l with
  | nil => simp [walkList, listFiles]
  | cons c cs =>
    simp only [listErrFree, Bool.and_eq_true] at h
    have h1 := walkEntry_errFree (some parent) acc c h.1
    simp only [walkList, h1]
    have h2 := walkList_errFree parent
      (acc ++ (entryFiles (some parent) c).filter isAudio) cs h.2
    rw [h2]
    simp [listFiles, List.filter_append, List.append_assoc]
termination_by sizeOf l

end

/-- Claim C2 (amended): the paths `LoadTracks` returns are exactly the
reached non-directory entries whose lowercased extension is `.mp3`, `.wav`
or `.flac`, in discovery order — so among reached entries, inclusion holds
iff the entry is a file with a matching extension; and on an error-free walk
every file of the tree, at every nesting depth, is reached and filtered this
way. -/
theorem LoadTracks_filters (t : FSEntry) :
    (LoadTracks t).1 =
      (((reachedEntry none t).1).filter
        (fun e => !e.2 && isAudio e.1)).map (fun e => e.1) ∧
    (entryErrFree t = true →
      (LoadTracks t).1 = (entryFiles none t).filter isAudio) := by
  constructor
  · have h := (walkEntry_reached none [] t).1
    simpa [LoadTracks] using h
  · intro h
    have h2 := walkEntry_errFree none [] t h
    simp [LoadTracks, h2]

/-- Claim C1 (amended): an entry error aborts the scan — `LoadTracks`
returns a nil error exactly when no entry of the walk reports one. -/
theorem LoadTracks_error_aborts (t : FSEntry) :
    (LoadTracks t).2 = none ↔ entryErrFree t = true :=
  walkEntry_none_iff none [] t

/-- Counterexample to claim C1 as stated: in a walk where one directory
fails to read, `LoadTracks` does not complete with the audio files of the
other entries — it returns the failure as a scan-aborting error and drops
the audio file `root/z.mp3` that a continuing scan would have found. The
children are listed in lexical order (`"bad" < "z.mp3"`), the order
`filepath.WalkDir` visits them in, so the walk reaches the failing
directory `root/bad` first and `root/z.mp3` is never visited. -/
theorem LoadTracks_abort_cex :
    LoadTracks (.dir "root" none [.dir "bad" (some "read failed") [], .file "z.mp3"])
        = ([], some "read failed") ∧
    "root/z.mp3" ∉
      (LoadTracks (.dir "root" none
        [.dir "bad" (some "read failed") [], .file "z.mp3"])).1 ∧
    isAudio "root/z.mp3" = true := by
  refine ⟨?_, ?_, by decide⟩
  · simp [LoadTracks, walkEntry, walkList, pathOf]
  · simp [LoadTracks, walkEntry, walkList, pathOf]
